import Mathlib

/-!
Verification of the banana-slides repository against its specification.

Part 1 embeds the `MaterialCenterModal` reducer
(`src/frontend/src/components/shared/MaterialCenterModal.tsx`) and the
`DetailEditor` renovation-task poller (`src/unnamed/part_000`), both translated
directly from the TypeScript source.

Part 2 models the editable-PPTX export pipeline described in the
specification.  The pipeline's source code is not part of the provided files
(only its UI callers are), so those definitions are modelled from the spec, as
marked in their doc comments.
-/

namespace MC

/-- A material item, from the `Material` type used by `MaterialCenterModal`.
Only the fields visible to the modal are kept; the reducer inspects `id`. -/
structure Material where
  id : String
  url : String
  filename : String
  name : Option String
  prompt : Option String
  original_filename : Option String
  source_filename : Option String
deriving DecidableEq

/-- A project, as consumed by the modal's project filter dropdown. -/
structure Project where
  project_id : String
  idea_prompt : Option String
  outline_text : Option String
deriving DecidableEq

/-- The `preview` field of the modal state. -/
structure Preview where
  url : String
  label : String
deriving DecidableEq

/-- The `State` interface of `MaterialCenterModal.tsx` (lines 78-90).
JavaScript `Set<string>` values are modelled as `Finset String`. -/
structure State where
  items : List Material
  selected : Finset String
  deleting : Finset String
  loading : Bool
  uploading : Bool
  downloading : Bool
  filter : String
  projects : List Project
  projectsReady : Bool
  showAllProjects : Bool
  preview : Option Preview
deriving DecidableEq

/-- The `Action` union type of `MaterialCenterModal.tsx` (lines 92-107). -/
inductive Action where
  | setItems (items : List Material)
  | toggleSelect (key : String)
  | selectAll (keys : List String)
  | clearSelection
  | setLoading (flag : Bool)
  | setUploading (flag : Bool)
  | setDownloading (flag : Bool)
  | setFilter (value : String)
  | setProjects (list : List Project)
  | expandProjects
  | removeItem (key : String)
  | addDeleting (id : String)
  | removeDeleting (id : String)
  | setPreview (preview : Option Preview)
  | resetEphemeral

/-- The `initial` state of the modal (lines 109-121). -/
def initial : State :=
  { items := [], selected := ∅, deleting := ∅, loading := false, uploading := false
    downloading := false, filter := "all", projects := [], projectsReady := false
    showAllProjects := false, preview := none }

/-- The `reducer` of `MaterialCenterModal.tsx` (lines 123-171), translated
case by case.  `TOGGLE_SELECT` copies the selection and toggles membership of
the key; `REMOVE_ITEM` filters the items by id and deletes the key from the
selection. -/
def reducer (s : State) (a : Action) : State :=
  match a with
  | .setItems items => { s with items := items, loading := false }
  | .toggleSelect key =>
      { s with selected :=
          if key ∈ s.selected then s.selected.erase key else insert key s.selected }
  | .selectAll keys => { s with selected := keys.toFinset }
  | .clearSelection => { s with selected := ∅ }
  | .setLoading flag => { s with loading := flag }
  | .setUploading flag => { s with uploading := flag }
  | .setDownloading flag => { s with downloading := flag }
  | .setFilter value => { s with filter := value }
  | .setProjects list => { s with projects := list, projectsReady := true }
  | .expandProjects => { s with showAllProjects := true }
  | .removeItem key =>
      { s with items := s.items.filter (fun m => m.id != key)
               selected := s.selected.erase key }
  | .addDeleting id => { s with deleting := insert id s.deleting }
  | .removeDeleting id => { s with deleting := s.deleting.erase id }
  | .setPreview preview => { s with preview := preview }
  | .resetEphemeral => { s with selected := ∅, showAllProjects := false }

/-- Claim C8: in the `MaterialCenterModal` reducer, `TOGGLE_SELECT` is an
involution on the selection: applying it twice with the same key returns the
original selected set, and a single application inserts the key exactly when
it is absent and erases it exactly when it is present. -/
theorem toggleSelect_involutive (s : State) (k : String) :
    (reducer (reducer s (.toggleSelect k)) (.toggleSelect k)).selected = s.selected
    ∧ (k ∉ s.selected → (reducer s (.toggleSelect k)).selected = insert k s.selected)
    ∧ (k ∈ s.selected → (reducer s (.toggleSelect k)).selected = s.selected.erase k) := by
  refine ⟨?_, ?_, ?_⟩
  · by_cases h : k ∈ s.selected <;>
      simp [reducer, h, Finset.insert_erase, Finset.erase_insert]
  · intro h; simp [reducer, h]
  · intro h; simp [reducer, h]

/-- A concrete modal state used to witness the reducer theorems. -/
def exState : State := { initial with selected := {"a"} }

/-- Witness for C8 at a concrete state: toggling "a" twice restores the
selection, and toggling the absent key "b" inserts it. -/
theorem toggleSelect_involutive_witness :
    (reducer (reducer exState (.toggleSelect "a")) (.toggleSelect "a")).selected
        = exState.selected
    ∧ (reducer exState (.toggleSelect "b")).selected = insert "b" exState.selected :=
  ⟨(toggleSelect_involutive exState "a").1,
   (toggleSelect_involutive exState "b").2.1 (by decide)⟩

/-- Claim C10: the `REMOVE_ITEM` action removes exactly the materials whose id
equals the key from `items`, deletes the key from `selected`, and leaves every
other field of the state unchanged. -/
theorem removeItem_frame (s : State) (k : String) :
    (reducer s (.removeItem k)).items = s.items.filter (fun m => m.id != k)
    ∧ (reducer s (.removeItem k)).selected = s.selected.erase k
    ∧ (reducer s (.removeItem k)).deleting = s.deleting
    ∧ (reducer s (.removeItem k)).loading = s.loading
    ∧ (reducer s (.removeItem k)).uploading = s.uploading
    ∧ (reducer s (.removeItem k)).downloading = s.downloading
    ∧ (reducer s (.removeItem k)).filter = s.filter
    ∧ (reducer s (.removeItem k)).projects = s.projects
    ∧ (reducer s (.removeItem k)).projectsReady = s.projectsReady
    ∧ (reducer s (.removeItem k)).showAllProjects = s.showAllProjects
    ∧ (reducer s (.removeItem k)).preview = s.preview := by
  refine ⟨rfl, rfl, rfl, rfl, rfl, rfl, rfl, rfl, rfl, rfl, rfl⟩

end MC

namespace Poll

/-- Status of a renovation task returned by `getTaskStatus`. -/
inductive Status where
  | processing
  | completed
  | failed
deriving DecidableEq

/-- The task payload of a successful `getTaskStatus` response. -/
structure Task where
  status : Status
  progress : Option (Nat × Nat)
deriving DecidableEq

/-- One outcome of a `getTaskStatus` call inside the `DetailEditor` poll loop:
either the promise rejected (`failure`) or it resolved with `response.data`,
which the code checks for truthiness (`success none` models a response with no
task payload). -/
inductive Outcome where
  | failure
  | success (task : Option Task)
deriving DecidableEq

/-- Whether the `getTaskStatus` call itself succeeded (did not throw). -/
def Outcome.isSuccess : Outcome → Bool
  | .failure => false
  | .success _ => true

/-- The toasts the poll loop can show. -/
inductive Toast where
  | taskFailed
  | pollFailed
deriving DecidableEq

/-- Observable state of the `DetailEditor` renovation poller: the
`pollFailCount` local, whether `renovationTaskId` is still in localStorage,
the `isRenovationProcessing` flag, the progress pair, whether `navigate('/')`
has run, whether the loop will poll again, and the toasts shown so far. -/
structure PollState where
  failCount : Nat
  storage : Bool
  processing : Bool
  progress : Option (Nat × Nat)
  navigatedHome : Bool
  active : Bool
  toasts : List Toast
deriving DecidableEq

/-- Poller state right after the effect starts: task id present in storage,
processing shown, no failures yet. -/
def initPoll : PollState :=
  { failCount := 0, storage := true, processing := true, progress := none
    navigatedHome := false, active := true, toasts := [] }

/-- One iteration of `poll` in `DetailEditor` (src/unnamed/part_000 lines
94-142), given the outcome of its `getTaskStatus` call.  An inactive state is
left unchanged (the loop no longer runs). -/
def step (s : PollState) (o : Outcome) : PollState :=
  if s.active = false then s else
  match o with
  | .failure =>
      if 5 ≤ s.failCount + 1 then
        { s with failCount := s.failCount + 1, storage := false, processing := false
                 progress := none, navigatedHome := true, active := false
                 toasts := s.toasts ++ [Toast.pollFailed] }
      else
        { s with failCount := s.failCount + 1 }
  | .success none => { s with active := false }
  | .success (some task) =>
      let s1 : PollState := { s with failCount := 0 }
      let s2 : PollState :=
        match task.progress with
        | some p => { s1 with progress := some p }
        | none => s1
      match task.status with
      | .processing => s2
      | .completed =>
          { s2 with storage := false, processing := false, progress := none
                    active := false }
      | .failed =>
          { s2 with storage := false, processing := false, progress := none
                    navigatedHome := true, active := false
                    toasts := s2.toasts ++ [Toast.taskFailed] }

/-- Run the poll loop over a list of `getTaskStatus` outcomes. -/
def runPoll (s : PollState) : List Outcome → PollState
  | [] => s
  | o :: os => runPoll (step s o) os

/-- `true` when the outcome list contains a run of five consecutive
failures (counting restarts after every non-failure outcome). -/
def consecFrom (c : Nat) : List Outcome → Bool
  | [] => false
  | .failure :: tr => (5 ≤ c + 1) || consecFrom (c + 1) tr
  | _ :: tr => consecFrom 0 tr

/-- `true` when the outcome list contains five consecutive failures. -/
def hasFiveConsecFailures (tr : List Outcome) : Bool := consecFrom 0 tr

theorem step_inactive (s : PollState) (o : Outcome) (h : s.active = false) :
    step s o = s := by
  simp [step, h]

theorem runPoll_inactive (s : PollState) (tr : List Outcome) (h : s.active = false) :
    runPoll s tr = s := by
  induction tr with
  | nil => rfl
  | cons o os ih => simp [runPoll, step_inactive s o h, ih]

theorem pollFailed_needs_five_aux (tr : List Outcome) :
    ∀ s : PollState, s.active = true → Toast.pollFailed ∉ s.toasts →
      Toast.pollFailed ∈ (runPoll s tr).toasts → consecFrom s.failCount tr = true := by
  induction tr with
  | nil => intro s _ hnot hmem; exact absurd hmem hnot
  | cons o os ih =>
    intro s hact hnot hmem
    match o with
    | .failure =>
      by_cases h5 : 5 ≤ s.failCount + 1
      · simp [consecFrom, h5]
      · have hstep : step s .failure = { s with failCount := s.failCount + 1 } := by
          simp [step, hact, h5]
        rw [runPoll, hstep] at hmem
        have := ih { s with failCount := s.failCount + 1 } hact hnot hmem
        simp [consecFrom, h5, this]
    | .success none =>
      have hstep : step s (.success none) = { s with active := false } := by
        simp [step, hact]
      rw [runPoll, hstep, runPoll_inactive _ _ rfl] at hmem
      exact absurd hmem hnot
    | .success (some task) =>
      match htask : task.status with
      | .processing =>
        have hmem' : Toast.pollFailed ∈ (runPoll (step s (.success (some task))) os).toasts := by
          rw [runPoll] at hmem; exact hmem
        have hact' : (step s (.success (some task))).active = true := by
          simp [step, hact, htask]
          cases task.progress <;> simp
        have hnot' : Toast.pollFailed ∉ (step s (.success (some task))).toasts := by
          simp [step, hact, htask]
          cases task.progress <;> simpa using hnot
        have hfc : (step s (.success (some task))).failCount = 0 := by
          simp [step, hact, htask]
          cases task.progress <;> simp
        have := ih _ hact' hnot' hmem'
        rw [hfc] at this
        simpa [consecFrom] using this
      | .completed =>
        have hstep : (step s (.success (some task))).active = false ∧
            (step s (.success (some task))).toasts = s.toasts := by
          simp [step, hact, htask]
          cases task.progress <;> simp
        rw [runPoll, runPoll_inactive _ _ hstep.1, hstep.2] at hmem
        exact absurd hmem hnot
      | .failed =>
        have hstep : (step s (.success (some task))).active = false ∧
            (step s (.success (some task))).toasts = s.toasts ++ [Toast.taskFailed] := by
          simp [step, hact, htask]
          cases task.progress <;> simp
        rw [runPoll, runPoll_inactive _ _ hstep.1, hstep.2] at hmem
        simp at hmem
        exact absurd hmem hnot

/-- Claim C9 counterexample: a successful `getTaskStatus` call whose response
carries no task data does not reset the consecutive-failure counter — after
three failures the counter is 3, the loop is still active, and a successful
no-data poll leaves the counter at 3 (the code returns before
`pollFailCount = 0` runs), refuting "any successful poll resets the
consecutive-failure counter to zero". -/
theorem poll_noData_no_reset :
    Outcome.isSuccess (Outcome.success none) = true
    ∧ (runPoll initPoll [.failure, .failure, .failure]).active = true
    ∧ (runPoll initPoll [.failure, .failure, .failure]).failCount = 3
    ∧ (step (runPoll initPoll [.failure, .failure, .failure]) (.success none)).failCount = 3 := by
  decide

/-- Claim C9 (amended): the poller abandons polling — removing the stored task
id, clearing the processing state, navigating home and toasting the poll-failed
message — exactly on the fifth consecutive failed `getTaskStatus` call and
never before (a failure with fewer than four prior consecutive failures only
increments the counter); any successful poll that returns task data resets the
counter to zero, while a successful poll with no task data halts polling
without resetting it; and along any outcome trace the poll-failed abandonment
occurs only if the trace contains five consecutive failures. -/
theorem poll_abandon_spec :
    (∀ s : PollState, s.active = true → s.failCount + 1 < 5 →
        step s .failure = { s with failCount := s.failCount + 1 })
    ∧ (∀ s : PollState, s.active = true → 5 ≤ s.failCount + 1 →
        step s .failure = { s with
            failCount := s.failCount + 1
            storage := false
            processing := false
            progress := none
            navigatedHome := true
            active := false
            toasts := s.toasts ++ [Toast.pollFailed] })
    ∧ (∀ (s : PollState) (task : Task), s.active = true →
        (step s (.success (some task))).failCount = 0)
    ∧ (∀ s : PollState, s.active = true →
        (step s (.success none)).failCount = s.failCount
        ∧ (step s (.success none)).active = false
        ∧ (step s (.success none)).toasts = s.toasts)
    ∧ (∀ tr : List Outcome, Toast.pollFailed ∈ (runPoll initPoll tr).toasts →
        hasFiveConsecFailures tr = true) := by
  refine ⟨?_, ?_, ?_, ?_, ?_⟩
  · intro s hact h5
    have : ¬ (5 ≤ s.failCount + 1) := by omega
    simp [step, hact, this]
  · intro s hact h5
    simp [step, hact, h5]
  · intro s task hact
    simp [step, hact]
    cases task.progress <;> cases task.status <;> simp
  · intro s hact
    simp [step, hact]
  · intro tr hmem
    exact pollFailed_needs_five_aux tr initPoll rfl (by simp [initPoll]) hmem

/-- Witness for the amended C9 theorem at concrete states: a failure at
counter 0 only increments; a failure at counter 4 abandons with cleanup,
navigation and the poll-failed toast; a data-bearing success resets the
counter; a no-data success freezes the counter and halts; and the
five-failure trace is detected. -/
theorem poll_abandon_spec_witness :
    step initPoll .failure = { initPoll with failCount := 1 }
    ∧ step { initPoll with failCount := 4 } .failure
        = { initPoll with
            failCount := 5
            storage := false
            processing := false
            progress := none
            navigatedHome := true
            active := false
            toasts := [Toast.pollFailed] }
    ∧ (step { initPoll with failCount := 2 }
        (.success (some { status := .processing, progress := none }))).failCount = 0
    ∧ (step { initPoll with failCount := 2 } (.success none)).failCount = 2
    ∧ hasFiveConsecFailures [.failure, .failure, .failure, .failure, .failure] = true := by
  refine ⟨?_, ?_, ?_, ?_, ?_⟩
  · exact poll_abandon_spec.1 initPoll (by decide) (by decide)
  · have h := poll_abandon_spec.2.1 { initPoll with failCount := 4 } (by decide) (by decide)
    rw [h]; decide
  · exact poll_abandon_spec.2.2.1 _ _ (by decide)
  · exact (poll_abandon_spec.2.2.2.1 { initPoll with failCount := 2 } (by decide)).1
  · exact poll_abandon_spec.2.2.2.2 [.failure, .failure, .failure, .failure, .failure]
      (by decide)

end Poll

namespace Pipe

/-- Modelled from the spec: a bounding box in normalized 0-1 coordinates
(x, y, w, h), as carried by every Region of the layout tree. -/
structure Box where
  x : ℚ
  y : ℚ
  w : ℚ
  h : ℚ
deriving DecidableEq

/-- Modelled from the spec: the full slide canvas in normalized coordinates. -/
def fullCanvas : Box := ⟨0, 0, 1, 1⟩

/-- Modelled from the spec: `inner` is contained in `outer` up to the
tolerance `ε` on every side. -/
def containedIn (inner outer : Box) (ε : ℚ) : Bool :=
  decide (outer.x - ε ≤ inner.x) && decide (outer.y - ε ≤ inner.y)
  && decide (inner.x + inner.w ≤ outer.x + outer.w + ε)
  && decide (inner.y + inner.h ≤ outer.y + outer.h + ε)

/-- Modelled from the spec: the segmenter clamps every detected child box
into its parent box, which is how the tree-containment invariant of the
Region data model is maintained. -/
def clip (outer b : Box) : Box :=
  let x1 := min (max outer.x b.x) (outer.x + outer.w)
  let y1 := min (max outer.y b.y) (outer.y + outer.h)
  let x2 := min (outer.x + outer.w) (b.x + b.w)
  let y2 := min (outer.y + outer.h) (b.y + b.h)
  ⟨x1, y1, max 0 (x2 - x1), max 0 (y2 - y1)⟩

/-- Modelled from the spec: the kind of a Region. -/
inductive RegionKind where
  | textBlock
  | table
  | image
  | group
  | background
deriving DecidableEq

mutual
/-- Modelled from the spec: a node of the layout tree — bounding box, kind,
z-order (paint order index) and ordered children (children only for Group). -/
inductive Region where
  | node (rid : Nat) (box : Box) (kind : RegionKind) (z : Nat) (children : RegionList)
deriving DecidableEq
/-- Ordered children of a Region. -/
inductive RegionList where
  | nil
  | cons (head : Region) (tail : RegionList)
deriving DecidableEq
end

def Region.rid : Region → Nat
  | .node i _ _ _ _ => i

def Region.box : Region → Box
  | .node _ b _ _ _ => b

def Region.kind : Region → RegionKind
  | .node _ _ k _ _ => k

def Region.z : Region → Nat
  | .node _ _ _ z _ => z

def Region.children : Region → RegionList
  | .node _ _ _ _ cs => cs

/-- Modelled from the spec: the leaf classifications of the detector
capability ({text-like, table-like, image-like}); the Background region is
added by the segmenter itself and Group is a recursion marker. -/
inductive LeafKind where
  | textBlock
  | table
  | image
deriving DecidableEq

def LeafKind.toKind : LeafKind → RegionKind
  | .textBlock => .textBlock
  | .table => .table
  | .image => .image

mutual
/-- Modelled from the spec: one candidate foreground region proposed by the
classifier capability for the slide image — either an atomic leaf, or a
cluster of sub-elements (a Group) together with its dominant leaf type, used
when the depth budget is exhausted. -/
inductive Proposal where
  | leaf (pid : Nat) (box : Box) (kind : LeafKind)
  | group (pid : Nat) (box : Box) (dominant : LeafKind) (sub : ProposalList)
deriving DecidableEq
/-- A list of proposals. -/
inductive ProposalList where
  | nil
  | cons (p : Proposal) (ps : ProposalList)
deriving DecidableEq
end

def Proposal.pbox : Proposal → Box
  | .leaf _ b _ => b
  | .group _ b _ _ => b

mutual
/-- Modelled from the spec: turn one detected proposal into a Region nested
in `parent`.  The box is clipped into the parent box; a Group recurses up to
the depth budget, and below that depth (or when the cluster has no
sub-elements) it becomes a single atomic leaf of its dominant type. -/
def buildRegion (depth : Nat) (parent : Box) (z : Nat) : Proposal → Region
  | .leaf pid b k => .node pid (clip parent b) k.toKind z .nil
  | .group pid b dom sub =>
    match depth, sub with
    | 0, _ => .node pid (clip parent b) dom.toKind z .nil
    | _ + 1, .nil => .node pid (clip parent b) dom.toKind z .nil
    | d + 1, .cons q qs =>
        .node pid (clip parent b) .group z
          (buildChildren d (clip parent b) 0 (.cons q qs))
/-- Modelled from the spec: build sibling Regions, assigning ascending
z-order indices. -/
def buildChildren (depth : Nat) (parent : Box) (z : Nat) : ProposalList → RegionList
  | .nil => .nil
  | .cons p ps => .cons (buildRegion depth parent z p) (buildChildren depth parent (z + 1) ps)
end

/-- Modelled from the spec: `segment(image, maxDepth) -> Region`.  The
classifier capability's detection result on the image is represented by the
proposal tree `ps` (a deterministic fake per the spec's capability-interface
design note).  The root is a Group covering the full canvas; its first child
is a Background covering the whole canvas, followed by the detected
foreground regions, recursively segmented and clipped into their parent
boxes up to `maxDepth`. -/
def segment (ps : ProposalList) (maxDepth : Nat) : Region :=
  .node 0 fullCanvas .group 0
    (.cons (.node 1 fullCanvas .background 0 .nil)
      (buildChildren maxDepth fullCanvas 1 ps))

mutual
/-- Every Region of the tree is contained in its parent's box up to `ε`. -/
def treeContained (ε : ℚ) : Region → Bool
  | .node _ b _ _ cs => childrenContained ε b cs
/-- Every Region of the list is contained in `b` up to `ε`, recursively. -/
def childrenContained (ε : ℚ) (b : Box) : RegionList → Bool
  | .nil => true
  | .cons c cs => containedIn c.box b ε && treeContained ε c && childrenContained ε b cs
end

theorem clip_w_nonneg (o b : Box) : 0 ≤ (clip o b).w := by
  simp [clip]

theorem clip_h_nonneg (o b : Box) : 0 ≤ (clip o b).h := by
  simp [clip]

theorem contained_clip (o b : Box) (ε : ℚ) (hw : 0 ≤ o.w) (hh : 0 ≤ o.h) (hε : 0 ≤ ε) :
    containedIn (clip o b) o ε = true := by
  simp only [containedIn, clip, Bool.and_eq_true, decide_eq_true_eq]
  refine ⟨⟨⟨?_, ?_⟩, ?_⟩, ?_⟩
  · have h1 : o.x ≤ max o.x b.x := le_max_left _ _
    have h2 : o.x ≤ o.x + o.w := by linarith
    have := le_min h1 h2
    linarith [this]
  · have h1 : o.y ≤ max o.y b.y := le_max_left _ _
    have h2 : o.y ≤ o.y + o.h := by linarith
    have := le_min h1 h2
    linarith [this]
  · have h1 : min (max o.x b.x) (o.x + o.w) ≤ o.x + o.w := min_le_right _ _
    have h2 : min (o.x + o.w) (b.x + b.w) ≤ o.x + o.w := min_le_left _ _
    rcases le_total (min (o.x + o.w) (b.x + b.w) - min (max o.x b.x) (o.x + o.w)) 0 with h | h
    · rw [max_eq_left h]; linarith
    · rw [max_eq_right h]; linarith
  · have h1 : min (max o.y b.y) (o.y + o.h) ≤ o.y + o.h := min_le_right _ _
    have h2 : min (o.y + o.h) (b.y + b.h) ≤ o.y + o.h := min_le_left _ _
    rcases le_total (min (o.y + o.h) (b.y + b.h) - min (max o.y b.y) (o.y + o.h)) 0 with h | h
    · rw [max_eq_left h]; linarith
    · rw [max_eq_right h]; linarith

theorem buildRegion_box (depth : Nat) (parent : Box) (z : Nat) (p : Proposal) :
    (buildRegion depth parent z p).box = clip parent p.pbox := by
  match p with
  | .leaf pid b k => simp [buildRegion, Proposal.pbox, Region.box]
  | .group pid b dom sub =>
    match depth, sub with
    | 0, _ => simp [buildRegion, Proposal.pbox, Region.box]
    | _ + 1, .nil => simp [buildRegion, Proposal.pbox, Region.box]
    | _ + 1, .cons q qs => simp [buildRegion, Proposal.pbox, Region.box]

mutual
theorem buildRegion_contained (ε : ℚ) (hε : 0 ≤ ε) :
    ∀ (p : Proposal) (depth : Nat) (parent : Box) (z : Nat),
      treeContained ε (buildRegion depth parent z p) = true
  | .leaf pid b k, depth, parent, z => by
      simp [buildRegion, treeContained, childrenContained]
  | .group pid b dom sub, depth, parent, z => by
      match depth, sub with
      | 0, _ => simp [buildRegion, treeContained, childrenContained]
      | _ + 1, .nil => simp [buildRegion, treeContained, childrenContained]
      | d + 1, .cons q qs =>
        have h := buildChildren_contained ε hε (.cons q qs) d (clip parent b) 0
          (clip_w_nonneg parent b) (clip_h_nonneg parent b)
        simpa [buildRegion, treeContained] using h
theorem buildChildren_contained (ε : ℚ) (hε : 0 ≤ ε) :
    ∀ (ps : ProposalList) (depth : Nat) (parent : Box) (z : Nat),
      0 ≤ parent.w → 0 ≤ parent.h →
      childrenContained ε parent (buildChildren depth parent z ps) = true
  | .nil, depth, parent, z => by
      intro hw hh
      simp [buildChildren, childrenContained]
  | .cons p ps, depth, parent, z => by
      intro hw hh
      have h1 : containedIn (buildRegion depth parent z p).box parent ε = true := by
        rw [buildRegion_box]
        exact contained_clip parent p.pbox ε hw hh hε
      have h2 := buildRegion_contained ε hε p depth parent z
      have h3 := buildChildren_contained ε hε ps depth parent (z + 1) hw hh
      simp [buildChildren, childrenContained, h1, h2, h3]
end

/-- Claim C3: for every Region tree returned by the Layout Segmenter, every
Region's bounding box is contained within its parent's bounding box up to any
nonnegative tolerance ε; `treeContained` checks this for all parent-child
pairs of the tree. -/
theorem segment_tree_containment (ps : ProposalList) (maxDepth : Nat) (ε : ℚ)
    (hε : 0 ≤ ε) : treeContained ε (segment ps maxDepth) = true := by
  have hbg : containedIn fullCanvas fullCanvas ε = true := by
    simp only [containedIn, fullCanvas, Bool.and_eq_true, decide_eq_true_eq]
    refine ⟨⟨⟨by linarith, by linarith⟩, by linarith⟩, by linarith⟩
  have hfg := buildChildren_contained ε hε ps maxDepth fullCanvas 1
    (by simp [fullCanvas]) (by simp [fullCanvas])
  simp [segment, treeContained, childrenContained, Region.box, hbg, hfg]

/-- A concrete proposal tree: a group holding a text block and a table,
next to an image, with boxes that stick out of their parents. -/
def exProposals : ProposalList :=
  .cons (.group 10 ⟨0, 0, 3/4, 3/4⟩ .textBlock
    (.cons (.leaf 11 ⟨1/8, 1/8, 1, 1/4⟩ .textBlock)
      (.cons (.leaf 12 ⟨1/8, 1/2, 1/2, 1/4⟩ .table) .nil)))
    (.cons (.leaf 13 ⟨1/2, 1/2, 1/2, 1/2⟩ .image) .nil)

/-- Witness for C3: the segmented example tree satisfies containment at
tolerance 0. -/
theorem segment_tree_containment_witness :
    treeContained 0 (segment exProposals 4) = true :=
  segment_tree_containment exProposals 4 0 (by decide)

/-- Modelled from the spec: horizontal alignment of a recovered text block. -/
inductive HAlign where
  | left
  | center
  | right
deriving DecidableEq

/-- Modelled from the spec: recovered literal text and style — text string,
font size in points, weight, RGBA color, alignment and approximate family. -/
structure TextStyle where
  text : String
  fontSize : ℚ
  bold : Bool
  color : Nat × Nat × Nat × Nat
  align : HAlign
  family : String
deriving DecidableEq

/-- Modelled from the spec: the error taxonomy of the export pipeline. -/
inductive PipeError where
  | segmentationFailed
  | ocrLowConfidence (rid : Nat)
  | tableStructureAmbiguous (rid : Nat)
  | backgroundReconstructionFailed
  | encodingFailed
deriving DecidableEq

/-- Modelled from the spec: `recoverText(image, region)` — the OCR capability
gives the literal text and a recognition confidence for the region id; the
recoverer fails with `OcrLowConfidence` when the confidence is below the
configured threshold, and otherwise returns a TextStyle carrying the text. -/
def recoverText (ocr : Nat → String × ℚ) (threshold : ℚ) (rid : Nat) :
    Except PipeError TextStyle :=
  if (ocr rid).2 < threshold then .error (.ocrLowConfidence rid)
  else .ok { text := (ocr rid).1, fontSize := 18, bold := false
             color := (0, 0, 0, 255), align := .left, family := "sans" }

/-- Modelled from the spec: one table cell — anchor position, row/col merge
spans and the cell text. -/
structure Cell where
  row : Nat
  col : Nat
  rowSpan : Nat
  colSpan : Nat
  text : String
deriving DecidableEq

/-- Modelled from the spec: a recovered table — row count, column count and
the ordered cells. -/
structure TableModel where
  rows : Nat
  cols : Nat
  cells : List Cell
deriving DecidableEq

/-- Whether the cell covers grid position (i, j) through its spans. -/
def covers (c : Cell) (i j : Nat) : Bool :=
  decide (c.row ≤ i) && decide (i < c.row + c.rowSpan)
  && decide (c.col ≤ j) && decide (j < c.col + c.colSpan)

/-- Modelled from the spec: the spans of the cells tile the rows × cols grid
exactly — every grid position is covered by exactly one cell. -/
def tilesExactly (T : TableModel) : Prop :=
  ∀ i j, i < T.rows → j < T.cols → T.cells.countP (fun c => covers c i j) = 1

/-- Consecutive gaps of a list of detected line positions (pixels). -/
def gaps : List ℤ → List ℤ
  | a :: b :: rest => (b - a) :: gaps (b :: rest)
  | _ => []

/-- Modelled from the spec: a family of detected line hypotheses is
consistent when the lines are strictly ascending and all gaps agree within
the tolerance (inconsistent gaps suggest mis-segmentation). -/
def linesConsistent (lines : List ℤ) (tol : ℕ) : Bool :=
  (gaps lines).all (fun g => decide (0 < g))
  && (gaps lines).all (fun g => (gaps lines).all (fun g2 => decide ((g - g2).natAbs ≤ tol)))

/-- The unmerged rows × cols grid of 1×1 cells with per-cell OCR text. -/
def gridCells (rows cols : Nat) (ct : Nat → Nat → String) : List Cell :=
  (List.range rows).bind (fun i => (List.range cols).map (fun j => ⟨i, j, 1, 1, ct i j⟩))

/-- Modelled from the spec: `recoverTable(image, region)` — the
`recognizeTableLines` capability gives the detected row and column line
hypotheses for the region; the recoverer fails with
`TableStructureAmbiguous` when either family has fewer than three lines
(fewer than two rows/columns of aligned edges) or its gaps disagree beyond
the tolerance, and otherwise returns the recovered cell grid with per-cell
text from `ct`. -/
def recoverTable (rid : Nat) (lines : List ℤ × List ℤ) (tol : ℕ)
    (ct : Nat → Nat → String) : Except PipeError TableModel :=
  if 3 ≤ lines.1.length ∧ 3 ≤ lines.2.length
      ∧ linesConsistent lines.1 tol = true ∧ linesConsistent lines.2 tol = true then
    .ok { rows := lines.1.length - 1, cols := lines.2.length - 1
          cells := gridCells (lines.1.length - 1) (lines.2.length - 1) ct }
  else .error (.tableStructureAmbiguous rid)

theorem countP_bind {α β : Type} (l : List α) (f : α → List β) (p : β → Bool) :
    (l.bind f).countP p = (l.map fun a => (f a).countP p).sum := by
  induction l with
  | nil => simp
  | cons a l ih => simp [List.countP_append, ih]

theorem countP_range_of_iff (p : Nat → Bool) (j C : Nat)
    (hp : ∀ x, p x = true ↔ x = j) :
    (List.range C).countP p = if j < C then 1 else 0 := by
  induction C with
  | zero => simp
  | succ C ih =>
    rw [List.range_succ, List.countP_append, ih]
    by_cases hc : C = j
    · have hpc : p C = true := (hp C).mpr hc
      subst hc
      simp [List.countP_cons, hpc]
    · have hpc : p C = false := by
        rcases Bool.eq_false_or_eq_true (p C) with h | h
        · exact absurd ((hp C).mp h) hc
        · exact h
      simp [List.countP_cons, hpc]
      split_ifs with h1 h2 <;> omega

theorem countP_range_zero (p : Nat → Bool) (C : Nat)
    (hp : ∀ x, p x = false) : (List.range C).countP p = 0 := by
  rw [List.countP_eq_zero]
  intro a _
  simp [hp a]

theorem sum_ind_range (i R v : Nat) :
    ((List.range R).map fun r => if r = i then v else 0).sum = if i < R then v else 0 := by
  induction R with
  | zero => simp
  | succ R ih =>
    rw [List.range_succ, List.map_append, List.sum_append, ih]
    by_cases hc : R = i
    · subst hc
      simp
    · simp [hc]
      split_ifs with h1 h2 <;> omega

theorem gridCells_countP (R C : Nat) (ct : Nat → Nat → String) (i j : Nat)
    (hi : i < R) (hj : j < C) :
    (gridCells R C ct).countP (fun c => covers c i j) = 1 := by
  rw [gridCells, countP_bind]
  have hinner : ∀ r ∈ List.range R,
      ((List.range C).map fun c2 => (⟨r, c2, 1, 1, ct r c2⟩ : Cell)).countP
        (fun c => covers c i j) = if r = i then 1 else 0 := by
    intro r _
    rw [List.countP_map]
    by_cases hr : r = i
    · subst hr
      rw [countP_range_of_iff _ j C]
      · simp [hj]
      · intro x
        simp only [Function.comp_apply, covers, Bool.and_eq_true, decide_eq_true_eq]
        omega
    · rw [countP_range_zero]
      · simp [hr]
      · intro x
        simp only [Function.comp_apply, covers]
        have : ¬ (r ≤ i ∧ i < r + 1) := by omega
        rcases Nat.lt_or_ge i r with h | h
        · simp [Nat.not_le.mpr h]
        · have : ¬ (i < r + 1) := by omega
          simp [this]
  rw [List.map_congr_left hinner, sum_ind_range]
  simp [hi]

/-- Claim C2: every TableModel produced by the Table Structure Recoverer
tiles its rows × cols grid exactly — each grid position is covered by
exactly one cell, with no gaps and no overlaps. -/
theorem recoverTable_tiles (rid : Nat) (lines : List ℤ × List ℤ) (tol : ℕ)
    (ct : Nat → Nat → String) (T : TableModel)
    (h : recoverTable rid lines tol ct = .ok T) : tilesExactly T := by
  rw [recoverTable] at h
  split_ifs at h with hc
  · intro i j hi hj
    cases h
    exact gridCells_countP _ _ ct i j hi hj

/-- The table recovered from three evenly spaced row lines and three evenly
spaced column lines. -/
def exTable : TableModel :=
  { rows := 2, cols := 2
    cells := [⟨0, 0, 1, 1, "a"⟩, ⟨0, 1, 1, 1, "b"⟩, ⟨1, 0, 1, 1, "a"⟩, ⟨1, 1, 1, 1, "b"⟩] }

/-- Witness for C2: recovering a concrete 2×2 table succeeds and, by the
theorem, position (1, 0) is covered by exactly one cell. -/
theorem recoverTable_tiles_witness :
    exTable.cells.countP (fun c => covers c 1 0) = 1 :=
  recoverTable_tiles 7 ([0, 10, 20], [0, 10, 20]) 0
    (fun _ j => if j = 0 then "a" else "b") exTable (by rfl) 1 0
    (by decide) (by decide)

/-- Insert a region into a z-sorted sibling list. -/
def insertByZ (r : Region) : RegionList → RegionList
  | .nil => .cons r .nil
  | .cons c cs => if r.z ≤ c.z then .cons r (.cons c cs) else .cons c (insertByZ r cs)

/-- Sort a sibling list by ascending z-order. -/
def sortByZ : RegionList → RegionList
  | .nil => .nil
  | .cons c cs => insertByZ c (sortByZ cs)

mutual
/-- Recursively sort every child list by ascending z-order — the paint-order
normalization the assembler walks. -/
def normalize : Region → Region
  | .node rid b k z cs => .node rid b k z (sortByZ (normalizeList cs))
def normalizeList : RegionList → RegionList
  | .nil => .nil
  | .cons c cs => .cons (normalize c) (normalizeList cs)
end

/-- Modelled from the spec: absolute pixel geometry of a placed element,
derived from the Region's normalized box and the fixed 16:9 target canvas. -/
structure AbsBox where
  x : ℚ
  y : ℚ
  w : ℚ
  h : ℚ
deriving DecidableEq

def canvasW : ℚ := 1280

def canvasH : ℚ := 720

def toAbs (b : Box) : AbsBox :=
  ⟨b.x * canvasW, b.y * canvasH, b.w * canvasW, b.h * canvasH⟩

/-- Modelled from the spec: a placed element of a slide document. -/
inductive Element where
  | text (rid : Nat) (box : AbsBox) (style : TextStyle)
  | table (rid : Nat) (box : AbsBox) (model : TableModel)
  | image (rid : Nat) (box : AbsBox)
deriving DecidableEq

/-- The id of the Region an element was placed for. -/
def Element.erid : Element → Nat
  | .text rid _ _ => rid
  | .table rid _ _ => rid
  | .image rid _ => rid

def Element.isText : Element → Bool
  | .text _ _ _ => true
  | _ => false

/-- Modelled from the spec: the background plate — the canvas with all
foreground region boxes masked and inpainted (abstracted to recording the
filled boxes). -/
structure BackgroundPlate where
  filled : List Box
deriving DecidableEq

/-- Modelled from the spec: `reconstructBackground(image, foregroundRegions)`
masks out all foreground region boxes and fills the holes. -/
def reconstructBackground (fg : List Box) : BackgroundPlate := ⟨fg⟩

/-- Modelled from the spec: the assembled, format-agnostic slide document. -/
structure SlideDocument where
  background : BackgroundPlate
  elements : List Element
deriving DecidableEq

/-- The single placed element a non-Group leaf gives rise to. -/
def emitLeaf (texts : Nat → TextStyle) (tables : Nat → TableModel) (r : Region) : Element :=
  match r.kind with
  | .textBlock => .text r.rid (toAbs r.box) (texts r.rid)
  | .table => .table r.rid (toAbs r.box) (tables r.rid)
  | _ => .image r.rid (toAbs r.box)

mutual
/-- Collect the non-Group nodes of a tree in walk order. -/
def walkLeaves : Region → List Region
  | .node rid b k z cs =>
    match k with
    | .group => walkLeavesList cs
    | _ => [.node rid b k z cs]
def walkLeavesList : RegionList → List Region
  | .nil => []
  | .cons c cs => walkLeaves c ++ walkLeavesList cs
end

mutual
/-- Modelled from the spec: walk the (paint-order-sorted) tree, emitting one
placed element per leaf; Group regions are not emitted themselves and
Background leaves are skipped. -/
def emitRegion (texts : Nat → TextStyle) (tables : Nat → TableModel) : Region → List Element
  | .node rid b k _ cs =>
    match k with
    | .group => emitList texts tables cs
    | .background => []
    | .textBlock => [.text rid (toAbs b) (texts rid)]
    | .table => [.table rid (toAbs b) (tables rid)]
    | .image => [.image rid (toAbs b)]
def emitList (texts : Nat → TextStyle) (tables : Nat → TableModel) : RegionList → List Element
  | .nil => []
  | .cons c cs => emitRegion texts tables c ++ emitList texts tables cs
end

/-- The z-ascending walk of a tree: its non-Group leaves, visited after
sorting every level by ascending z-order. -/
def zWalk (r : Region) : List Region := walkLeaves (normalize r)

/-- Modelled from the spec: `assemble(root, texts, tables, background)` —
walk the Region tree in paint order (z-order ascending) and emit one placed
element per leaf Region; Group regions are not emitted. -/
def assemble (root : Region) (texts : Nat → TextStyle) (tables : Nat → TableModel)
    (bg : BackgroundPlate) : SlideDocument :=
  ⟨bg, emitRegion texts tables (normalize root)⟩

mutual
/-- A tree the assembler accepts: content nodes carry no children (children
only for Group, per the Region data model) and every Group is a cluster of
at least one sub-element. -/
def assemblable : Region → Bool
  | .node _ _ k _ cs =>
    match k, cs with
    | .group, .nil => false
    | .group, .cons c cs2 => assemblableList (.cons c cs2)
    | _, .nil => true
    | _, .cons _ _ => false
def assemblableList : RegionList → Bool
  | .nil => true
  | .cons c cs => assemblable c && assemblableList cs
end

mutual
theorem emitRegion_eq_walk (texts : Nat → TextStyle) (tables : Nat → TableModel) :
    ∀ r : Region, emitRegion texts tables r
      = ((walkLeaves r).filter (fun x => x.kind != RegionKind.background)).map
          (emitLeaf texts tables)
  | .node rid b k z cs => by
    match k with
    | .group =>
      have h := emitList_eq_walk texts tables cs
      simpa [emitRegion, walkLeaves] using h
    | .background => simp [emitRegion, walkLeaves, Region.kind]
    | .textBlock => simp [emitRegion, walkLeaves, Region.kind, emitLeaf, Region.rid, Region.box]
    | .table => simp [emitRegion, walkLeaves, Region.kind, emitLeaf, Region.rid, Region.box]
    | .image => simp [emitRegion, walkLeaves, Region.kind, emitLeaf, Region.rid, Region.box]
theorem emitList_eq_walk (texts : Nat → TextStyle) (tables : Nat → TableModel) :
    ∀ l : RegionList, emitList texts tables l
      = ((walkLeavesList l).filter (fun x => x.kind != RegionKind.background)).map
          (emitLeaf texts tables)
  | .nil => by simp [emitList, walkLeavesList]
  | .cons c cs => by
    have h1 := emitRegion_eq_walk texts tables c
    have h2 := emitList_eq_walk texts tables cs
    simp [emitList, walkLeavesList, List.filter_append, h1, h2]
end

theorem walkLeavesList_insertByZ (c : Region) :
    ∀ l : RegionList, (walkLeavesList (insertByZ c l)).Perm
      (walkLeaves c ++ walkLeavesList l)
  | .nil => by simp [insertByZ, walkLeavesList]
  | .cons d ds => by
    rw [insertByZ]
    by_cases h : c.z ≤ d.z
    · simp [h, walkLeavesList]
    · simp only [h, if_false]
      rw [walkLeavesList]
      have ih := walkLeavesList_insertByZ c ds
      have step1 := ih.append_left (walkLeaves d)
      have step2 : (walkLeaves d ++ (walkLeaves c ++ walkLeavesList ds)).Perm
          (walkLeaves c ++ (walkLeaves d ++ walkLeavesList ds)) :=
        List.perm_append_comm_assoc _ _ _
      have step3 : walkLeaves c ++ (walkLeaves d ++ walkLeavesList ds)
          = walkLeaves c ++ walkLeavesList (.cons d ds) := by rw [walkLeavesList]
      exact step1.trans (step3 ▸ step2)

theorem walkLeavesList_sortByZ :
    ∀ l : RegionList, (walkLeavesList (sortByZ l)).Perm (walkLeavesList l)
  | .nil => by simp [sortByZ]
  | .cons c cs => by
    rw [sortByZ, walkLeavesList]
    exact (walkLeavesList_insertByZ c _).trans
      ((walkLeavesList_sortByZ cs).append_left (walkLeaves c))

mutual
theorem walkLeaves_normalize :
    ∀ r : Region, assemblable r = true → (walkLeaves (normalize r)).Perm (walkLeaves r)
  | .node rid b k z cs => by
    intro h
    match k, cs with
    | .group, .nil => simp [assemblable] at h
    | .group, .cons c cs2 =>
      have h2 : assemblableList (.cons c cs2) = true := by
        simpa [assemblable] using h
      have hl := walkLeavesList_normalize (.cons c cs2) h2
      have hs := walkLeavesList_sortByZ (normalizeList (.cons c cs2))
      simp only [normalize, walkLeaves]
      exact hs.trans hl
    | .textBlock, .nil => simp [normalize, normalizeList, sortByZ, walkLeaves]
    | .table, .nil => simp [normalize, normalizeList, sortByZ, walkLeaves]
    | .image, .nil => simp [normalize, normalizeList, sortByZ, walkLeaves]
    | .background, .nil => simp [normalize, normalizeList, sortByZ, walkLeaves]
    | .textBlock, .cons _ _ => simp [assemblable] at h
    | .table, .cons _ _ => simp [assemblable] at h
    | .image, .cons _ _ => simp [assemblable] at h
    | .background, .cons _ _ => simp [assemblable] at h
theorem walkLeavesList_normalize :
    ∀ l : RegionList, assemblableList l = true →
      (walkLeavesList (normalizeList l)).Perm (walkLeavesList l)
  | .nil => by intro h; simp [normalizeList]
  | .cons c cs => by
    intro h
    rw [assemblableList, Bool.and_eq_true] at h
    have h1 := walkLeaves_normalize c h.1
    have h2 := walkLeavesList_normalize cs h.2
    simp only [normalizeList, walkLeavesList]
    exact h1.append h2
end

mutual
theorem walkLeaves_shape :
    ∀ r : Region, assemblable r = true →
      ∀ x ∈ walkLeaves r, x.children = RegionList.nil ∧ x.kind ≠ RegionKind.group
  | .node rid b k z cs => by
    intro h x hx
    match k, cs with
    | .group, .nil => simp [assemblable] at h
    | .group, .cons c cs2 =>
      have h2 : assemblableList (.cons c cs2) = true := by
        simpa [assemblable] using h
      rw [walkLeaves] at hx
      exact walkLeavesList_shape _ h2 x hx
    | .textBlock, .nil =>
      simp only [walkLeaves, List.mem_singleton] at hx
      subst hx
      refine ⟨rfl, ?_⟩
      intro hk
      simp [Region.kind] at hk
    | .table, .nil =>
      simp only [walkLeaves, List.mem_singleton] at hx
      subst hx
      refine ⟨rfl, ?_⟩
      intro hk
      simp [Region.kind] at hk
    | .image, .nil =>
      simp only [walkLeaves, List.mem_singleton] at hx
      subst hx
      refine ⟨rfl, ?_⟩
      intro hk
      simp [Region.kind] at hk
    | .background, .nil =>
      simp only [walkLeaves, List.mem_singleton] at hx
      subst hx
      refine ⟨rfl, ?_⟩
      intro hk
      simp [Region.kind] at hk
    | .textBlock, .cons _ _ => simp [assemblable] at h
    | .table, .cons _ _ => simp [assemblable] at h
    | .image, .cons _ _ => simp [assemblable] at h
    | .background, .cons _ _ => simp [assemblable] at h
theorem walkLeavesList_shape :
    ∀ l : RegionList, assemblableList l = true →
      ∀ x ∈ walkLeavesList l, x.children = RegionList.nil ∧ x.kind ≠ RegionKind.group
  | .nil => by intro h x hx; simp [walkLeavesList] at hx
  | .cons c cs => by
    intro h x hx
    rw [assemblableList, Bool.and_eq_true] at h
    rw [walkLeavesList] at hx
    rcases List.mem_append.mp hx with hx | hx
    · exact walkLeaves_shape c h.1 x hx
    · exact walkLeavesList_shape cs h.2 x hx
end

theorem assemblableList_insertByZ (c : Region) :
    ∀ l : RegionList, assemblable c = true → assemblableList l = true →
      assemblableList (insertByZ c l) = true
  | .nil => by
    intro hc hl
    simp [insertByZ, assemblableList, hc]
  | .cons d ds => by
    intro hc hl
    rw [assemblableList, Bool.and_eq_true] at hl
    rw [insertByZ]
    by_cases h : c.z ≤ d.z
    · simp [h, assemblableList, hc, hl.1, hl.2]
    · simp only [h, if_false]
      simp [assemblableList, hl.1, assemblableList_insertByZ c ds hc hl.2]

theorem assemblableList_sortByZ :
    ∀ l : RegionList, assemblableList l = true → assemblableList (sortByZ l) = true
  | .nil => by intro h; simp [sortByZ, assemblableList]
  | .cons c cs => by
    intro h
    rw [assemblableList, Bool.and_eq_true] at h
    rw [sortByZ]
    exact assemblableList_insertByZ c _ h.1 (assemblableList_sortByZ cs h.2)

theorem walkLeaves_nonempty : ∀ c : Region, assemblable c = true →
    1 ≤ (walkLeaves c).length
  | .node rid b k z cs => by
    intro h
    match k, cs with
    | .group, .nil => simp [assemblable] at h
    | .group, .cons d ds =>
      have h2 : assemblableList (.cons d ds) = true := by
        simpa [assemblable] using h
      rw [assemblableList, Bool.and_eq_true] at h2
      rw [walkLeaves, walkLeavesList]
      have := walkLeaves_nonempty d h2.1
      simp only [List.length_append]
      omega
    | .textBlock, .nil => simp [walkLeaves]
    | .table, .nil => simp [walkLeaves]
    | .image, .nil => simp [walkLeaves]
    | .background, .nil => simp [walkLeaves]
    | .textBlock, .cons _ _ => simp [assemblable] at h
    | .table, .cons _ _ => simp [assemblable] at h
    | .image, .cons _ _ => simp [assemblable] at h
    | .background, .cons _ _ => simp [assemblable] at h

theorem walkLeavesList_cons_group_nonempty (c : Region) (cs2 : RegionList)
    (h : assemblableList (.cons c cs2) = true) :
    1 ≤ (walkLeavesList (.cons c cs2)).length := by
  rw [assemblableList, Bool.and_eq_true] at h
  rw [walkLeavesList]
  have : 1 ≤ (walkLeaves c).length := walkLeaves_nonempty c h.1
  simp only [List.length_append]
  omega

theorem insertByZ_ne_nil (r : Region) :
    ∀ l : RegionList, insertByZ r l ≠ RegionList.nil
  | .nil => by simp [insertByZ]
  | .cons c cs => by
    rw [insertByZ]
    by_cases h : r.z ≤ c.z <;> simp [h]

mutual
theorem assemblable_normalize :
    ∀ r : Region, assemblable r = true → assemblable (normalize r) = true
  | .node rid b k z cs => by
    intro h
    match k, cs with
    | .group, .nil => simp [assemblable] at h
    | .group, .cons c cs2 =>
      have h2 : assemblableList (.cons c cs2) = true := by
        simpa [assemblable] using h
      have hall := assemblableList_sortByZ (normalizeList (.cons c cs2))
        (assemblableList_normalize _ h2)
      simp only [normalizeList, sortByZ] at hall
      simp only [normalize, normalizeList, sortByZ]
      rcases hsort : insertByZ (normalize c) (sortByZ (normalizeList cs2)) with _ | ⟨d, ds⟩
      · exact absurd hsort (insertByZ_ne_nil _ _)
      · rw [hsort] at hall
        simpa [assemblable] using hall
    | .textBlock, .nil => simp [normalize, normalizeList, sortByZ, assemblable]
    | .table, .nil => simp [normalize, normalizeList, sortByZ, assemblable]
    | .image, .nil => simp [normalize, normalizeList, sortByZ, assemblable]
    | .background, .nil => simp [normalize, normalizeList, sortByZ, assemblable]
    | .textBlock, .cons _ _ => simp [assemblable] at h
    | .table, .cons _ _ => simp [assemblable] at h
    | .image, .cons _ _ => simp [assemblable] at h
    | .background, .cons _ _ => simp [assemblable] at h
theorem assemblableList_normalize :
    ∀ l : RegionList, assemblableList l = true →
      assemblableList (normalizeList l) = true
  | .nil => by intro h; simp [normalizeList, assemblableList]
  | .cons c cs => by
    intro h
    rw [assemblableList, Bool.and_eq_true] at h
    simp only [normalizeList, assemblableList, Bool.and_eq_true]
    exact ⟨assemblable_normalize c h.1, assemblableList_normalize cs h.2⟩
end

mutual
theorem buildRegion_assemblable :
    ∀ (p : Proposal) (depth : Nat) (parent : Box) (z : Nat),
      assemblable (buildRegion depth parent z p) = true
  | .leaf pid b k, depth, parent, z => by
    match k with
    | .textBlock => simp [buildRegion, assemblable, LeafKind.toKind]
    | .table => simp [buildRegion, assemblable, LeafKind.toKind]
    | .image => simp [buildRegion, assemblable, LeafKind.toKind]
  | .group pid b dom sub, depth, parent, z => by
    match depth, sub with
    | 0, _ =>
      match dom with
      | .textBlock => simp [buildRegion, assemblable, LeafKind.toKind]
      | .table => simp [buildRegion, assemblable, LeafKind.toKind]
      | .image => simp [buildRegion, assemblable, LeafKind.toKind]
    | _ + 1, .nil =>
      match dom with
      | .textBlock => simp [buildRegion, assemblable, LeafKind.toKind]
      | .table => simp [buildRegion, assemblable, LeafKind.toKind]
      | .image => simp [buildRegion, assemblable, LeafKind.toKind]
    | d + 1, .cons q qs =>
      have h := buildChildren_assemblable (.cons q qs) d (clip parent b) 0
      simp only [buildRegion, buildChildren, assemblable]
      simpa [buildChildren] using h
theorem buildChildren_assemblable :
    ∀ (ps : ProposalList) (depth : Nat) (parent : Box) (z : Nat),
      assemblableList (buildChildren depth parent z ps) = true
  | .nil, depth, parent, z => by simp [buildChildren, assemblableList]
  | .cons p ps, depth, parent, z => by
    simp only [buildChildren, assemblableList, Bool.and_eq_true]
    exact ⟨buildRegion_assemblable p depth parent z,
           buildChildren_assemblable ps depth parent (z + 1)⟩
end

/-- Claim C1: for every Region tree accepted by the Document Assembler, the
assembled element list is exactly the map, over the non-Background leaves in
ascending z-order (`zWalk`), of the one placed element each leaf gives rise
to — so each non-Background leaf appears exactly once and Group regions
contribute no element; the z-walk is a permutation of the tree's leaves, and
every entry of it is a childless non-Group node.  The trees given to the
assembler are the segmenter's outputs, which are all accepted. -/
theorem assemble_spec :
    (∀ (root : Region) (texts : Nat → TextStyle) (tables : Nat → TableModel)
        (bg : BackgroundPlate), assemblable root = true →
      (assemble root texts tables bg).elements
          = ((zWalk root).filter (fun x => x.kind != RegionKind.background)).map
              (emitLeaf texts tables)
      ∧ (zWalk root).Perm (walkLeaves root)
      ∧ ∀ x ∈ zWalk root, x.children = RegionList.nil ∧ x.kind ≠ RegionKind.group)
    ∧ (∀ (ps : ProposalList) (maxDepth : Nat), assemblable (segment ps maxDepth) = true) := by
  constructor
  · intro root texts tables bg h
    refine ⟨?_, ?_, ?_⟩
    · rw [assemble]
      exact emitRegion_eq_walk texts tables (normalize root)
    · exact walkLeaves_normalize root h
    · intro x hx
      exact walkLeaves_shape (normalize root) (assemblable_normalize root h) x hx
  · intro ps maxDepth
    have h := buildChildren_assemblable ps maxDepth fullCanvas 1
    simp only [segment, assemblable, assemblableList, Bool.and_eq_true]
    exact ⟨by simp [assemblable], h⟩

/-- A trivial text map for witnesses. -/
def texts0 : Nat → TextStyle := fun _ => ⟨"t", 18, false, (0, 0, 0, 255), .left, "sans"⟩

/-- A trivial table map for witnesses. -/
def tables0 : Nat → TableModel := fun _ => ⟨0, 0, []⟩

/-- Witness for C1: on the segmented example tree, the assembled element
list is the mapped z-walk of its non-Background leaves. -/
theorem assemble_spec_witness :
    (assemble (segment exProposals 4) texts0 tables0 ⟨[]⟩).elements
      = ((zWalk (segment exProposals 4)).filter
          (fun x => x.kind != RegionKind.background)).map (emitLeaf texts0 tables0) :=
  (assemble_spec.1 (segment exProposals 4) texts0 tables0 ⟨[]⟩
    (assemble_spec.2 exProposals 4)).1

def encodeQ (q : ℚ) : List Nat := [if q < 0 then 1 else 0, q.num.natAbs, q.den]

def encodeBox (b : Box) : List Nat :=
  encodeQ b.x ++ encodeQ b.y ++ encodeQ b.w ++ encodeQ b.h

def encodeAbs (b : AbsBox) : List Nat :=
  encodeQ b.x ++ encodeQ b.y ++ encodeQ b.w ++ encodeQ b.h

def encodeString (s : String) : List Nat := s.data.map Char.toNat

def encodeStyle (st : TextStyle) : List Nat :=
  encodeString st.text ++ encodeQ st.fontSize
  ++ [if st.bold then 1 else 0, st.color.1, st.color.2.1, st.color.2.2.1, st.color.2.2.2]
  ++ [match st.align with | .left => 0 | .center => 1 | .right => 2]
  ++ encodeString st.family

def encodeCell (c : Cell) : List Nat :=
  [c.row, c.col, c.rowSpan, c.colSpan] ++ encodeString c.text

def encodeTable (T : TableModel) : List Nat :=
  [T.rows, T.cols] ++ T.cells.bind encodeCell

def encodeElement : Element → List Nat
  | .text rid b st => 1 :: rid :: (encodeAbs b ++ encodeStyle st)
  | .table rid b T => 2 :: rid :: (encodeAbs b ++ encodeTable T)
  | .image rid b => 3 :: rid :: encodeAbs b

/-- Modelled from the spec: `encode(doc) -> Bytes` — serialize the document:
a fixed header, the full-bleed background plate, then the positioned
elements in document order.  It is a pure function of the document. -/
def encode (doc : SlideDocument) : List Nat :=
  [80, 80, 84, 88] ++ doc.background.filled.bind encodeBox
    ++ doc.elements.bind encodeElement

/-- Claim C6: the Format Encoder is deterministic — any two documents with
the same background plate and the same element list (same element ordering
and geometry) encode to identical bytes, and re-running
`encode(assemble(...))` on identical recovered inputs yields byte-identical
output. -/
theorem encode_deterministic :
    (∀ d1 d2 : SlideDocument, d1.background = d2.background →
        d1.elements = d2.elements → encode d1 = encode d2)
    ∧ ∀ (root : Region) (texts : Nat → TextStyle) (tables : Nat → TableModel)
        (bg : BackgroundPlate),
        encode (assemble root texts tables bg) = encode (assemble root texts tables bg) := by
  constructor
  · intro d1 d2 hb he
    rw [encode, encode, hb, he]
  · intro root texts tables bg
    rfl

/-- Witness for C6: two structurally identical concrete documents encode to
the same bytes. -/
theorem encode_deterministic_witness :
    encode ⟨⟨[fullCanvas]⟩, []⟩ = encode ⟨⟨[fullCanvas]⟩, []⟩ :=
  encode_deterministic.1 ⟨⟨[fullCanvas]⟩, []⟩ ⟨⟨[fullCanvas]⟩, []⟩ rfl rfl

/-- Modelled from the spec: the capability interface injected into the
pipeline — per-region OCR (`recognizeText`: literal text plus confidence),
table line detection (`recognizeTableLines`: row and column line
hypotheses), and per-cell table text, all keyed by region id. -/
structure Capabilities where
  recognizeText : Nat → String × ℚ
  recognizeTableLines : Nat → List ℤ × List ℤ
  tableCellText : Nat → Nat → Nat → String

/-- Modelled from the spec: the export configuration options recognized at
the pipeline boundary. -/
structure ExportConfig where
  returnPartialOnError : Bool
  maxSegmentationDepth : Nat
  minOcrConfidence : ℚ
  tableStructureTolerance : ℕ

/-- Modelled from the spec: the pipeline stage a warning was raised in. -/
inductive Stage where
  | ocr
  | table
  | background
deriving DecidableEq

/-- Modelled from the spec: a structured non-fatal warning (region id,
stage, reason). -/
structure Warning where
  rid : Nat
  stage : Stage
  reason : String
deriving DecidableEq

/-- Whether recovering the region's table structure fails (the recoverer's
only failure is `TableStructureAmbiguous`). -/
def tableBad (caps : Capabilities) (tol : ℕ) (rid : Nat) : Bool :=
  match recoverTable rid (caps.recognizeTableLines rid) tol (caps.tableCellText rid) with
  | .ok _ => false
  | .error _ => true

mutual
/-- Modelled from the spec: the caller demotes every Table region on which
the Table Structure Recoverer failed to a TextBlock, leaving the rest of the
tree unchanged. -/
def demoteTree (bad : Nat → Bool) : Region → Region
  | .node rid b k z cs =>
      .node rid b (if k = RegionKind.table ∧ bad rid = true then RegionKind.textBlock else k)
        z (demoteList bad cs)
def demoteList (bad : Nat → Bool) : RegionList → RegionList
  | .nil => .nil
  | .cons c cs => .cons (demoteTree bad c) (demoteList bad cs)
end

mutual
/-- Region ids of the TextBlock nodes of a tree, in walk order. -/
def textIds : Region → List Nat
  | .node rid _ k _ cs =>
    match k with
    | .textBlock => [rid]
    | .group => textIdsList cs
    | _ => []
def textIdsList : RegionList → List Nat
  | .nil => []
  | .cons c cs => textIds c ++ textIdsList cs
end

mutual
/-- Region ids of the Table nodes of a tree, in walk order. -/
def tableIds : Region → List Nat
  | .node rid _ k _ cs =>
    match k with
    | .table => [rid]
    | .group => tableIdsList cs
    | _ => []
def tableIdsList : RegionList → List Nat
  | .nil => []
  | .cons c cs => tableIds c ++ tableIdsList cs
end

/-- The boxes of the non-Background leaves, masked out of the background. -/
def fgBoxes (r : Region) : List Box :=
  ((walkLeaves r).filter (fun x => x.kind != RegionKind.background)).map Region.box

/-- The best-effort style used when OCR confidence is below threshold but
the export is configured to return a semi-finished product. -/
def bestEffort (txt : String) : TextStyle :=
  { text := txt, fontSize := 18, bold := false, color := (0, 0, 0, 255)
    align := .left, family := "sans" }

/-- Modelled from the spec: recover the text style of every TextBlock
region id.  A low-confidence region degrades to a best-effort style plus a
warning when `returnPartialOnError` is set, and otherwise fails the slide
with `OcrLowConfidence`. -/
def recoverTexts (ocr : Nat → String × ℚ) (threshold : ℚ) (rpoe : Bool) :
    List Nat → Except PipeError (List (Nat × TextStyle) × List Warning)
  | [] => .ok ([], [])
  | rid :: rest =>
    match recoverText ocr threshold rid with
    | .ok st =>
      match recoverTexts ocr threshold rpoe rest with
      | .ok (m, ws) => .ok ((rid, st) :: m, ws)
      | .error e => .error e
    | .error e =>
      if rpoe then
        match recoverTexts ocr threshold rpoe rest with
        | .ok (m, ws) =>
            .ok ((rid, bestEffort (ocr rid).1) :: m,
                 { rid := rid, stage := Stage.ocr, reason := "low confidence" } :: ws)
        | .error e2 => .error e2
      else .error e

/-- The result of a successful slide export: the assembled document, its
encoded bytes, and the accumulated non-fatal warnings. -/
structure ExportResult where
  doc : SlideDocument
  bytes : List Nat
  warnings : List Warning
deriving DecidableEq

/-- The demoted region tree of a slide: segment, then demote each
structure-ambiguous Table to a TextBlock. -/
def demotedRoot (caps : Capabilities) (tol : ℕ) (depth : Nat) (ps : ProposalList) : Region :=
  demoteTree (tableBad caps tol) (segment ps depth)

/-- The TextBlock region ids of the demoted tree — the regions that undergo
OCR, including demoted tables. -/
def slideTextIds (caps : Capabilities) (tol : ℕ) (depth : Nat) (ps : ProposalList) : List Nat :=
  textIds (demotedRoot caps tol depth ps)

/-- Modelled from the spec: export one slide — segment the image (the
detector outcome is `ps`), demote structure-ambiguous tables to text blocks
with a warning each, recover text styles (low OCR confidence degrades with a
warning under `returnPartialOnError`, otherwise fails the slide), rebuild
the background plate, assemble, and encode. -/
def exportSlide (caps : Capabilities) (cfg : ExportConfig) (ps : ProposalList) :
    Except PipeError ExportResult :=
  let root := segment ps cfg.maxSegmentationDepth
  let bad := tableBad caps cfg.tableStructureTolerance
  let root2 := demoteTree bad root
  match recoverTexts caps.recognizeText cfg.minOcrConfidence cfg.returnPartialOnError
      (textIds root2) with
  | .error e => .error e
  | .ok (m, ocrWarns) =>
    let texts : Nat → TextStyle := fun rid => (List.lookup rid m).getD (bestEffort "")
    let tables : Nat → TableModel := fun rid =>
      match recoverTable rid (caps.recognizeTableLines rid) cfg.tableStructureTolerance
          (caps.tableCellText rid) with
      | .ok T => T
      | .error _ => ⟨0, 0, []⟩
    let demWarns := ((tableIds root).filter bad).map
      (fun rid => { rid := rid, stage := Stage.table, reason := "structure ambiguous" })
    let doc := assemble root2 texts tables (reconstructBackground (fgBoxes root2))
    .ok { doc := doc, bytes := encode doc, warnings := ocrWarns ++ demWarns }

theorem recoverTexts_true (ocr : Nat → String × ℚ) (thr : ℚ) :
    ∀ ids : List Nat,
      recoverTexts ocr thr true ids
        = .ok (ids.map (fun rid => (rid, bestEffort (ocr rid).1)),
               (ids.filter (fun rid => decide ((ocr rid).2 < thr))).map
                 (fun rid => { rid := rid, stage := Stage.ocr, reason := "low confidence" })) := by
  intro ids
  induction ids with
  | nil => rfl
  | cons rid rest ih =>
    by_cases h : (ocr rid).2 < thr
    · simp [recoverTexts, recoverText, h, ih, bestEffort]
    · simp [recoverTexts, recoverText, h, ih, bestEffort]

theorem recoverTexts_false_fails (ocr : Nat → String × ℚ) (thr : ℚ) :
    ∀ (ids : List Nat) (r0 : Nat), r0 ∈ ids → (ocr r0).2 < thr →
      (∀ r ∈ ids, r ≠ r0 → ¬ (ocr r).2 < thr) →
      recoverTexts ocr thr false ids = .error (.ocrLowConfidence r0) := by
  intro ids
  induction ids with
  | nil => intro r0 hmem _ _; simp at hmem
  | cons rid rest ih =>
    intro r0 hmem hlow hothers
    by_cases hr : rid = r0
    · subst hr
      simp [recoverTexts, recoverText, hlow]
    · have hok : ¬ (ocr rid).2 < thr := hothers rid (List.mem_cons_self _ _) hr
      have hmem2 : r0 ∈ rest := by
        rcases List.mem_cons.mp hmem with h | h
        · exact absurd h.symm hr
        · exact h
      have hrec := ih r0 hmem2 hlow (fun r hrm => hothers r (List.mem_cons_of_mem _ hrm))
      simp [recoverTexts, recoverText, hok, hrec]

mutual
theorem tableIds_demote (bad : Nat → Bool) :
    ∀ (r : Region) (rid : Nat), rid ∈ tableIds r → bad rid = true →
      rid ∈ textIds (demoteTree bad r)
  | .node rid0 b k z cs => by
    intro rid hmem hbad
    match k with
    | .table =>
      simp only [tableIds, List.mem_singleton] at hmem
      subst hmem
      simp [demoteTree, textIds, hbad]
    | .group =>
      simp only [tableIds] at hmem
      have h := tableIdsList_demote bad cs rid hmem hbad
      simpa [demoteTree, textIds] using h
    | .textBlock => simp [tableIds] at hmem
    | .image => simp [tableIds] at hmem
    | .background => simp [tableIds] at hmem
theorem tableIdsList_demote (bad : Nat → Bool) :
    ∀ (l : RegionList) (rid : Nat), rid ∈ tableIdsList l → bad rid = true →
      rid ∈ textIdsList (demoteList bad l)
  | .nil => by intro rid hmem _; simp [tableIdsList] at hmem
  | .cons c cs => by
    intro rid hmem hbad
    rw [tableIdsList] at hmem
    rw [demoteList, textIdsList]
    rcases List.mem_append.mp hmem with h | h
    · exact List.mem_append.mpr (Or.inl (tableIds_demote bad c rid h hbad))
    · exact List.mem_append.mpr (Or.inr (tableIdsList_demote bad cs rid h hbad))
end

theorem textIdsList_insertByZ (c : Region) :
    ∀ l : RegionList, (textIdsList (insertByZ c l)).Perm (textIds c ++ textIdsList l)
  | .nil => by simp [insertByZ, textIdsList]
  | .cons d ds => by
    rw [insertByZ]
    by_cases h : c.z ≤ d.z
    · simp [h, textIdsList]
    · simp only [h, if_false]
      rw [textIdsList]
      have ih := textIdsList_insertByZ c ds
      have step1 := ih.append_left (textIds d)
      have step2 : (textIds d ++ (textIds c ++ textIdsList ds)).Perm
          (textIds c ++ (textIds d ++ textIdsList ds)) :=
        List.perm_append_comm_assoc _ _ _
      have step3 : textIds c ++ (textIds d ++ textIdsList ds)
          = textIds c ++ textIdsList (.cons d ds) := by rw [textIdsList]
      exact step1.trans (step3 ▸ step2)

theorem textIdsList_sortByZ :
    ∀ l : RegionList, (textIdsList (sortByZ l)).Perm (textIdsList l)
  | .nil => by simp [sortByZ]
  | .cons c cs => by
    rw [sortByZ, textIdsList]
    exact (textIdsList_insertByZ c _).trans
      ((textIdsList_sortByZ cs).append_left (textIds c))

mutual
theorem textIds_normalize :
    ∀ r : Region, (textIds (normalize r)).Perm (textIds r)
  | .node rid b k z cs => by
    match k with
    | .group =>
      have h1 := textIdsList_sortByZ (normalizeList cs)
      have h2 := textIdsList_normalize cs
      simp only [normalize, textIds]
      exact h1.trans h2
    | .textBlock => simp [normalize, textIds]
    | .table => simp [normalize, textIds]
    | .image => simp [normalize, textIds]
    | .background => simp [normalize, textIds]
theorem textIdsList_normalize :
    ∀ l : RegionList, (textIdsList (normalizeList l)).Perm (textIdsList l)
  | .nil => by simp [normalizeList]
  | .cons c cs => by
    simp only [normalizeList, textIdsList]
    exact (textIds_normalize c).append (textIdsList_normalize cs)
end

mutual
theorem textIds_emit (texts : Nat → TextStyle) (tables : Nat → TableModel) :
    ∀ (r : Region) (rid : Nat), rid ∈ textIds r →
      ∃ e ∈ emitRegion texts tables r, Element.erid e = rid ∧ Element.isText e = true
  | .node rid0 b k z cs => by
    intro rid hmem
    match k with
    | .textBlock =>
      simp only [textIds, List.mem_singleton] at hmem
      subst hmem
      exact ⟨.text rid (toAbs b) (texts rid), by simp [emitRegion], rfl, rfl⟩
    | .group =>
      simp only [textIds] at hmem
      obtain ⟨e, he, h1, h2⟩ := textIdsList_emit texts tables cs rid hmem
      exact ⟨e, by simpa [emitRegion] using he, h1, h2⟩
    | .table => simp [textIds] at hmem
    | .image => simp [textIds] at hmem
    | .background => simp [textIds] at hmem
theorem textIdsList_emit (texts : Nat → TextStyle) (tables : Nat → TableModel) :
    ∀ (l : RegionList) (rid : Nat), rid ∈ textIdsList l →
      ∃ e ∈ emitList texts tables l, Element.erid e = rid ∧ Element.isText e = true
  | .nil => by intro rid h; simp [textIdsList] at h
  | .cons c cs => by
    intro rid hmem
    rw [textIdsList] at hmem
    rcases List.mem_append.mp hmem with h | h
    · obtain ⟨e, he, h1, h2⟩ := textIds_emit texts tables c rid h
      exact ⟨e, by rw [emitList]; exact List.mem_append.mpr (Or.inl he), h1, h2⟩
    · obtain ⟨e, he, h1, h2⟩ := textIdsList_emit texts tables cs rid h
      exact ⟨e, by rw [emitList]; exact List.mem_append.mpr (Or.inr he), h1, h2⟩
end

/-- Claim C4: whenever the Table Structure Recoverer fails with
`TableStructureAmbiguous` on a Table region of the segmented tree, the
pipeline demotes that region to a TextBlock and the export continues rather
than aborting (under `returnPartialOnError`, which also rules out unrelated
fatal OCR failures): the export succeeds and the assembled document contains
a TextBlock element for that region's id. -/
theorem export_demotes_ambiguous_table (caps : Capabilities) (cfg : ExportConfig)
    (ps : ProposalList) (rid : Nat)
    (hmem : rid ∈ tableIds (segment ps cfg.maxSegmentationDepth))
    (hamb : recoverTable rid (caps.recognizeTableLines rid) cfg.tableStructureTolerance
        (caps.tableCellText rid) = .error (.tableStructureAmbiguous rid))
    (hflag : cfg.returnPartialOnError = true) :
    ∃ res, exportSlide caps cfg ps = .ok res
      ∧ ∃ e ∈ res.doc.elements, Element.erid e = rid ∧ Element.isText e = true := by
  have hbad : tableBad caps cfg.tableStructureTolerance rid = true := by
    simp [tableBad, hamb]
  have htext := tableIds_demote (tableBad caps cfg.tableStructureTolerance) _ rid hmem hbad
  have hmem2 : rid ∈ textIds (normalize (demoteTree (tableBad caps cfg.tableStructureTolerance)
      (segment ps cfg.maxSegmentationDepth))) :=
    ((textIds_normalize _).mem_iff).mpr htext
  unfold exportSlide
  rw [hflag]
  simp only [recoverTexts_true]
  exact ⟨_, rfl, textIds_emit _ _ _ rid hmem2⟩

/-- Witness for C4: with the example proposals, region 12 is a Table leaf
whose line hypotheses are inconsistent; the export succeeds and emits a
TextBlock element for region 12. -/
def caps0 : Capabilities :=
  { recognizeText := fun rid => if rid = 11 then ("faint", 0) else ("clear", 2)
    recognizeTableLines := fun rid =>
      if rid = 12 then ([0, 1, 5], [0, 1, 2]) else ([0, 10, 20], [0, 10, 20])
    tableCellText := fun _ _ _ => "cell" }

def cfg0 : ExportConfig :=
  { returnPartialOnError := true, maxSegmentationDepth := 4
    minOcrConfidence := 1, tableStructureTolerance := 0 }

theorem export_demotes_ambiguous_table_witness :
    ∃ res, exportSlide caps0 cfg0 exProposals = .ok res
      ∧ ∃ e ∈ res.doc.elements, Element.erid e = 12 ∧ Element.isText e = true :=
  export_demotes_ambiguous_table caps0 cfg0 exProposals 12 (by decide) (by rfl) rfl

theorem warn_count_one (p : Nat → Bool) (ids : List Nat) (r0 : Nat)
    (hone : ids.count r0 = 1) (hp : p r0 = true) :
    ((ids.filter p).map
      (fun rid => ({ rid := rid, stage := Stage.ocr, reason := "low confidence" } : Warning))).countP
      (fun w => w.rid == r0) = 1 := by
  rw [List.countP_map]
  have h1 : ((fun w : Warning => w.rid == r0) ∘ fun rid =>
      ({ rid := rid, stage := Stage.ocr, reason := "low confidence" } : Warning))
      = fun rid => rid == r0 := rfl
  rw [h1, List.countP_filter]
  have h2 : List.countP (fun a => (a == r0) && p a) ids
      = List.countP (fun a => a == r0) ids := by
    apply List.countP_congr
    intro x _
    by_cases hxr : x = r0
    · subst hxr; simp [hp]
    · simp [beq_iff_eq, hxr]
  rw [h2, ← List.count_eq_countP]
  exact hone

theorem warn_count_zero (bad : Nat → Bool) (tids : List Nat) (r0 : Nat)
    (hno : r0 ∉ tids) :
    ((tids.filter bad).map
      (fun rid => ({ rid := rid, stage := Stage.table, reason := "structure ambiguous" } : Warning))).countP
      (fun w => w.rid == r0) = 0 := by
  rw [List.countP_map, List.countP_eq_zero]
  intro a ha
  have hmem : a ∈ tids := List.mem_of_mem_filter ha
  have hne : a ≠ r0 := fun h => hno (h ▸ hmem)
  simp [Function.comp, beq_iff_eq, hne]

/-- Claim C5: when exactly one TextBlock region of the (demoted) tree has
OCR confidence below the threshold, the export with
`returnPartialOnError = true` completes, its warnings list contains exactly
one warning referencing that region's id, and the document's element list
still contains an entry for that region; with `returnPartialOnError = false`
the slide fails with `OcrLowConfidence` instead. -/
theorem export_warning_propagation (caps : Capabilities) (cfg : ExportConfig)
    (ps : ProposalList) (r0 : Nat)
    (hcount : (slideTextIds caps cfg.tableStructureTolerance cfg.maxSegmentationDepth ps).count r0 = 1)
    (hlow : (caps.recognizeText r0).2 < cfg.minOcrConfidence)
    (hothers : ∀ r ∈ slideTextIds caps cfg.tableStructureTolerance cfg.maxSegmentationDepth ps,
        r ≠ r0 → ¬ (caps.recognizeText r).2 < cfg.minOcrConfidence)
    (hnotab : r0 ∉ tableIds (segment ps cfg.maxSegmentationDepth)) :
    (∃ res, exportSlide caps { cfg with returnPartialOnError := true } ps = .ok res
      ∧ res.warnings.countP (fun w => w.rid == r0) = 1
      ∧ ∃ e ∈ res.doc.elements, Element.erid e = r0)
    ∧ exportSlide caps { cfg with returnPartialOnError := false } ps
        = .error (.ocrLowConfidence r0) := by
  simp only [slideTextIds, demotedRoot] at hcount hothers
  have hmem : r0 ∈ textIds (demoteTree (tableBad caps cfg.tableStructureTolerance)
      (segment ps cfg.maxSegmentationDepth)) :=
    List.count_pos_iff.mp (by omega)
  have hmem2 : r0 ∈ textIds (normalize (demoteTree (tableBad caps cfg.tableStructureTolerance)
      (segment ps cfg.maxSegmentationDepth))) :=
    ((textIds_normalize _).mem_iff).mpr hmem
  constructor
  · unfold exportSlide
    simp only [recoverTexts_true]
    refine ⟨_, rfl, ?_, ?_⟩
    · have hc := warn_count_one
        (fun rid => decide ((caps.recognizeText rid).2 < cfg.minOcrConfidence))
        (textIds (demoteTree (tableBad caps cfg.tableStructureTolerance)
          (segment ps cfg.maxSegmentationDepth))) r0 hcount (by simp [hlow])
      have hz := warn_count_zero (tableBad caps cfg.tableStructureTolerance)
        (tableIds (segment ps cfg.maxSegmentationDepth)) r0 hnotab
      simp only [List.countP_append, hc, hz]
    · exact Exists.imp (fun e h => ⟨h.1, h.2.1⟩) (textIds_emit _ _ _ r0 hmem2)
  · unfold exportSlide
    have hrec := recoverTexts_false_fails caps.recognizeText cfg.minOcrConfidence
      (textIds (demoteTree (tableBad caps cfg.tableStructureTolerance)
        (segment ps cfg.maxSegmentationDepth))) r0 hmem hlow hothers
    simp only [hrec]

/-- Witness for C5: with the example proposals, region 11 is the unique
low-confidence TextBlock; the export with partial results succeeds with
exactly one warning referencing region 11 and keeps an element for it, and
without partial results it fails with `OcrLowConfidence 11`. -/
theorem export_warning_propagation_witness :
    (∃ res, exportSlide caps0 { cfg0 with returnPartialOnError := true } exProposals = .ok res
      ∧ res.warnings.countP (fun w => w.rid == 11) = 1
      ∧ ∃ e ∈ res.doc.elements, Element.erid e = 11)
    ∧ exportSlide caps0 { cfg0 with returnPartialOnError := false } exProposals
        = .error (.ocrLowConfidence 11) :=
  export_warning_propagation caps0 cfg0 exProposals 11 (by decide) (by decide)
    (by decide) (by decide)

/-- Claim C7: a degenerate input image with no detectable foreground (the
detector proposes nothing) segments to a root Group whose only child is a
full-canvas Background; the export pipeline does not fail for any
capabilities and configuration, produces no warnings, and encoding succeeds
on a document whose element list is empty (zero text and zero table
elements). -/
theorem degenerate_export (caps : Capabilities) (cfg : ExportConfig) :
    segment .nil cfg.maxSegmentationDepth
        = Region.node 0 fullCanvas RegionKind.group 0
            (.cons (Region.node 1 fullCanvas RegionKind.background 0 .nil) .nil)
    ∧ ∃ res, exportSlide caps cfg .nil = .ok res
        ∧ res.doc.elements = []
        ∧ res.warnings = []
        ∧ res.bytes = encode { background := reconstructBackground [], elements := [] } := by
  exact ⟨rfl, _, rfl, rfl, rfl, rfl⟩

end Pipe
